import Mathlib

/-!
Shallow embedding of the vatican bottom-up beta reduction engine
(src/vatican.cpp).  The C++ heap of `Node` objects linked by raw pointers
is modelled as an association list from natural-number node ids to node
records; `new` draws the next fresh id, `delete` removes the binding.
Every recursive algorithm of the source (`upcopy`, `clear`, `cleanup`,
the splice loop of `beta_reduce`, `hnf_reduce_1`, `hnf_reduce`) takes an
explicit fuel argument; running out of fuel is the distinguished result
`Res.fuel`, while `std::abort()` and pointer misuse are `Res.abort`.
-/

namespace Vatican

/-- `enum UplinkType { UPLINK_APPL, UPLINK_APPR, UPLINK_NA }`. -/
inductive UplinkType where
  | appl
  | appr
  | na
deriving DecidableEq, Repr

/-- One `Uplink` record: the parent node and the slot tag.  The doubly
linked list structure of `UplinkSet` is modelled as a `List Uplink` in
head-to-tail order; `UplinkSet::add` appends at the tail. -/
structure Uplink where
  link : Nat
  type : UplinkType
deriving DecidableEq, Repr

/-- The `cache` field of a node: the null pointer, the `(Node*)~0` STOP
sentinel, or a pointer to a node. -/
inductive Cache where
  | null
  | stop
  | node (id : Nat)
deriving DecidableEq, Repr

/-- The tagged union of node variants (`NodeType` plus the union). -/
inductive NodeData where
  | app (left right : Nat)
  | lam (body var : Nat)
  | var
  | prim (p : Nat)
deriving DecidableEq, Repr

/-- One heap node: `class Node { Node* cache; UplinkSet uplinks; NodeType
type; union {...}; }`.  The primitive payload of a `PrimNode*` is
modelled as a bare natural number. -/
structure Node where
  cache : Cache
  uplinks : List Uplink
  data : NodeData
deriving DecidableEq, Repr

/-- The heap: association list of allocated nodes plus the next fresh id. -/
structure Heap where
  nodes : List (Nat × Node)
  next : Nat
deriving DecidableEq, Repr

/-- Outcome of running a piece of the engine: normal result, a
`std::abort()` / undefined-behaviour stop, or fuel exhaustion (a model
artifact only). -/
inductive Res (α : Type) where
  | ok (a : α)
  | abort
  | fuel
deriving DecidableEq, Repr

/-- First-match association list lookup (pointer dereference). -/
def lookupL : List (Nat × Node) → Nat → Option Node
  | [], _ => none
  | (k, v) :: rest, i => if i = k then some v else lookupL rest i

/-- Dereference a node id in the heap. -/
def hfind (h : Heap) (i : Nat) : Option Node :=
  lookupL h.nodes i

/-- Replace the first binding of key `i` (in-place field update through a
pointer); absent keys are left alone. -/
def setL : List (Nat × Node) → Nat → Node → List (Nat × Node)
  | [], _, _ => []
  | (k, v) :: rest, i, nd => if i = k then (k, nd) :: rest else (k, v) :: setL rest i nd

/-- Heap-level node update. -/
def hset (h : Heap) (i : Nat) (nd : Node) : Heap :=
  ⟨setL h.nodes i nd, h.next⟩

/-- Remove the first binding of key `i` (`delete node`). -/
def delL : List (Nat × Node) → Nat → List (Nat × Node)
  | [], _ => []
  | (k, v) :: rest, i => if i = k then rest else (k, v) :: delL rest i

/-- Heap-level node deletion. -/
def hdel (h : Heap) (i : Nat) : Heap :=
  ⟨delL h.nodes i, h.next⟩

/-- `new Node` with the given contents: returns the fresh id and the
grown heap. -/
def halloc (h : Heap) (nd : Node) : Nat × Heap :=
  (h.next, ⟨(h.next, nd) :: h.nodes, h.next + 1⟩)

/-- Overwrite the `cache` field of node `i`. -/
def setCache (h : Heap) (i : Nat) (c : Cache) : Heap :=
  match hfind h i with
  | some nd => hset h i ⟨c, nd.uplinks, nd.data⟩
  | none => h

/-- `child->uplinks.add(parent, type)`: append one uplink record at the
tail of `child`'s list. -/
def addUplink (h : Heap) (child : Nat) (u : Uplink) : Heap :=
  match hfind h child with
  | some nd => hset h child ⟨nd.cache, nd.uplinks ++ [u], nd.data⟩
  | none => h

/-- `UplinkSet::unlink`: remove the first record matching `(parent,
type)`; `none` when absent (the C++ then calls `std::abort()`). -/
def unlinkL : List Uplink → Nat → UplinkType → Option (List Uplink)
  | [], _, _ => none
  | u :: rest, p, t =>
    if u.link = p ∧ u.type = t then some rest
    else match unlinkL rest p t with
         | some l => some (u :: l)
         | none => none

/-- `child->uplinks.unlink(parent, type)` on the heap; aborts when the
record is absent, exactly as the source. -/
def unlinkHeap (h : Heap) (child parent : Nat) (ty : UplinkType) : Res Heap :=
  match hfind h child with
  | some nd =>
    match unlinkL nd.uplinks parent ty with
    | some l => .ok (hset h child ⟨nd.cache, l, nd.data⟩)
    | none => .abort
  | none => .abort

mutual

/-- `static void upcopy(Node* newchild, Node* into, UplinkType type)`,
the heart of the engine (vatican.cpp lines 101-177).  Note the faithful
rendering of the `NODE_PRIM` arm: it has no `break` in the source and
falls through into `default: std::abort()`. -/
def upcopy : Nat → Heap → Nat → Nat → UplinkType → Res Heap
  | 0, _, _, _, _ => .fuel
  | f + 1, h, newchild, into, ty =>
    match hfind h into with
    | none => .abort
    | some nd =>
      match nd.data with
      | .app l r =>
        match nd.cache with
        | .null =>
          let (nid, h1) := halloc h ⟨.null, [],
            if ty = .appl then .app newchild r else .app l newchild⟩
          let h2 := setCache h1 into (.node nid)
          upcopyUps f h2 nid nd.uplinks
        | .node c =>
          match hfind h c with
          | some ndc =>
            match ndc.data with
            | .app cl cr =>
              .ok (hset h c ⟨ndc.cache, ndc.uplinks,
                if ty = .appl then .app newchild cr else .app cl newchild⟩)
            | _ => .abort
          | none => .abort
        | .stop => .abort
      | .lam _ vr =>
        if nd.cache = .stop then .ok h
        else
          let (vid, h1) := halloc h ⟨.null, [], .var⟩
          let (nid, h2) := halloc h1 ⟨.null, [], .lam newchild vid⟩
          let h3 := setCache h2 into (.node nid)
          match upcopy f h3 vid vr .na with
          | .ok h4 => upcopyUps f h4 nid nd.uplinks
          | .abort => .abort
          | .fuel => .fuel
      | .var =>
        upcopyUps f (setCache h into (.node newchild)) newchild nd.uplinks
      | .prim _ => .abort

/-- The `while (cur)` traversal at the end of `upcopy`: recurse upward
onto each uplink of `into` with the rebuilt node. -/
def upcopyUps : Nat → Heap → Nat → List Uplink → Res Heap
  | 0, _, _, _ => .fuel
  | _ + 1, h, _, [] => .ok h
  | f + 1, h, nn, u :: rest =>
    match upcopy f h nn u.link u.type with
    | .ok h1 => upcopyUps f h1 nn rest
    | .abort => .abort
    | .fuel => .fuel

end

mutual

/-- `static void clear(Node* node)` (vatican.cpp lines 179-207):
iterate over `node`'s uplinks installing the deferred uplinks of each
parent's cached copy and resetting caches. -/
def clear : Nat → Heap → Nat → Res Heap
  | 0, _, _ => .fuel
  | f + 1, h, n =>
    match hfind h n with
    | none => .abort
    | some nd => clearUps f h nd.uplinks

/-- The `while (cur)` loop body of `clear`.  A parent whose cache is
null is skipped; a parent whose cache is the STOP sentinel would be
dereferenced (`cache->app.left`) in the source, which is undefined
behaviour, modelled as abort; a `Var`/`Prim` parent hits
`default: std::abort()`. -/
def clearUps : Nat → Heap → List Uplink → Res Heap
  | 0, _, _ => .fuel
  | _ + 1, h, [] => .ok h
  | f + 1, h, u :: rest =>
    match hfind h u.link with
    | none => .abort
    | some pnd =>
      match pnd.cache with
      | .null => clearUps f h rest
      | .stop => .abort
      | .node c =>
        match pnd.data with
        | .app _ _ =>
          match hfind h c with
          | some cnd =>
            match cnd.data with
            | .app cl cr =>
              let h1 := addUplink h cl ⟨c, .appl⟩
              let h2 := addUplink h1 cr ⟨c, .appr⟩
              let h3 := setCache h2 u.link .null
              match clear f h3 u.link with
              | .ok h4 => clearUps f h4 rest
              | .abort => .abort
              | .fuel => .fuel
            | _ => .abort
          | none => .abort
        | .lam _ pvr =>
          match hfind h c with
          | some cnd =>
            match cnd.data with
            | .lam cbd _ =>
              let h1 := addUplink h cbd ⟨c, .na⟩
              let h2 := setCache h1 u.link .null
              match clear f h2 pvr with
              | .ok h3 =>
                match clear f h3 u.link with
                | .ok h4 => clearUps f h4 rest
                | .abort => .abort
                | .fuel => .fuel
              | .abort => .abort
              | .fuel => .fuel
            | _ => .abort
          | none => .abort
        | _ => .abort

end

/-- `static void cleanup(Node* node)` (vatican.cpp lines 209-238): if
the node still has uplinks it is reachable and nothing happens;
otherwise unlink it from its children, clean them recursively and
release the node.  Note that in the `NODE_LAMBDA` arm the `var` child is
never released here. -/
def cleanup : Nat → Heap → Nat → Res Heap
  | 0, _, _ => .fuel
  | f + 1, h, n =>
    match hfind h n with
    | none => .abort
    | some nd =>
      match nd.uplinks with
      | _ :: _ => .ok h
      | [] =>
        match nd.data with
        | .lam bd _ =>
          match unlinkHeap h bd n .na with
          | .ok h1 =>
            match cleanup f h1 bd with
            | .ok h2 => .ok (hdel h2 n)
            | .abort => .abort
            | .fuel => .fuel
          | .abort => .abort
          | .fuel => .fuel
        | .app l r =>
          match unlinkHeap h l n .appl with
          | .ok h1 =>
            match cleanup f h1 l with
            | .ok h2 =>
              match unlinkHeap h2 r n .appr with
              | .ok h3 =>
                match cleanup f h3 r with
                | .ok h4 => .ok (hdel h4 n)
                | .abort => .abort
                | .fuel => .fuel
              | .abort => .abort
              | .fuel => .fuel
            | .abort => .abort
            | .fuel => .fuel
          | .abort => .abort
          | .fuel => .fuel
        | .var => .ok (hdel h n)
        | .prim _ => .ok (hdel h n)

/-- `static void upreplace(Node* newchild, Node* into, UplinkType type)`
(vatican.cpp lines 240-269).  In the `NODE_APP` arm any type other than
`UPLINK_APPL` selects the right slot, exactly as the `else` in the
source; the `NODE_LAMBDA` arm always unlinks with `UPLINK_NA`. -/
def upreplace (f : Nat) (h : Heap) (newchild into : Nat) (ty : UplinkType) : Res Heap :=
  match hfind h into with
  | none => .abort
  | some nd =>
    match nd.data with
    | .app l r =>
      if ty = .appl then
        match unlinkHeap h l into .appl with
        | .ok h1 =>
          let h2 := hset h1 into ⟨nd.cache, nd.uplinks, .app newchild r⟩
          let h3 := addUplink h2 newchild ⟨into, .appl⟩
          cleanup f h3 l
        | .abort => .abort
        | .fuel => .fuel
      else
        match unlinkHeap h r into .appr with
        | .ok h1 =>
          let h2 := hset h1 into ⟨nd.cache, nd.uplinks, .app l newchild⟩
          let h3 := addUplink h2 newchild ⟨into, .appr⟩
          cleanup f h3 r
        | .abort => .abort
        | .fuel => .fuel
    | .lam bd vr =>
      match unlinkHeap h bd into .na with
      | .ok h1 =>
        let h2 := hset h1 into ⟨nd.cache, nd.uplinks, .lam newchild vr⟩
        let h3 := addUplink h2 newchild ⟨into, .na⟩
        cleanup f h3 bd
      | .abort => .abort
      | .fuel => .fuel
    | _ => .abort

/-- The splice loop shared by `beta_reduce` and `prim_reduce`: call
`upreplace(result, parent, slot)` for each uplink of the redex (the
source saves `nexty` before each call; the list is snapshotted here). -/
def spliceUps : Nat → Heap → Nat → List Uplink → Res Heap
  | 0, _, _, _ => .fuel
  | _ + 1, h, _, [] => .ok h
  | f + 1, h, result, u :: rest =>
    match upreplace f h result u.link u.type with
    | .ok h1 => spliceUps f h1 result rest
    | .abort => .abort
    | .fuel => .fuel

/-- `static void beta_reduce(Node* app)` (vatican.cpp lines 271-295).
The degenerate case (the lambda's var has no uplinks) takes `fun.body`
as the result without copying; the general case seeds `upcopy` from the
var after marking the lambda with STOP, reads the rebuilt body out of
`fun->lambda.body->cache`, resets and clears, then splices the result
into every parent of the redex. -/
def beta_reduce : Nat → Heap → Nat → Res Heap
  | 0, _, _ => .fuel
  | f + 1, h, app =>
    match hfind h app with
    | none => .abort
    | some nda =>
      match nda.data with
      | .app fn arg =>
        match hfind h fn with
        | none => .abort
        | some ndf =>
          match ndf.data with
          | .lam bd vr =>
            match hfind h vr with
            | none => .abort
            | some ndv =>
              match (match ndv.uplinks with
                     | [] => Res.ok (h, bd)
                     | _ :: _ =>
                       let h1 := setCache h fn .stop
                       match upcopy f h1 arg vr .na with
                       | .ok h2 =>
                         match hfind h2 bd with
                         | some ndb =>
                           match ndb.cache with
                           | .node result =>
                             let h3 := setCache h2 fn .null
                             match clear f h3 vr with
                             | .ok h4 => Res.ok (h4, result)
                             | .abort => .abort
                             | .fuel => .fuel
                           | _ => .abort
                         | none => .abort
                       | .abort => .abort
                       | .fuel => .fuel) with
              | .ok (hres, result) =>
                match hfind hres app with
                | some nda2 => spliceUps f hres result nda2.uplinks
                | none => .abort
              | .abort => .abort
              | .fuel => .fuel
          | _ => .abort
      | _ => .abort

/-- The primitive collaborator: `PrimNode::apply(arg_head)`.  The
payload of a `PrimNode` is a natural number; `apply` inspects the body
under the argument head and, when it is itself a primitive, returns the
sum of the payloads, otherwise it is not applicable.  This is one pure
instance of the opaque external interface of the spec. -/
def primApply (h : Heap) (p : Nat) (dummy : Nat) : Option Nat :=
  match hfind h dummy with
  | some d =>
    match d.data with
    | .lam bd _ =>
      match hfind h bd with
      | some nb =>
        match nb.data with
        | .prim q => some (p + q)
        | _ => none
      | none => none
    | _ => none
  | none => none

/-- `static bool prim_reduce(Node* app)` (vatican.cpp lines 297-325):
wrap the argument in a temporary head, ask the primitive, free the
temporary head, and on success splice a fresh `Prim` node into every
parent of the application. -/
def prim_reduce (f : Nat) (h : Heap) (app : Nat) : Res (Bool × Heap) :=
  match hfind h app with
  | none => .abort
  | some nda =>
    match nda.data with
    | .app fn arg =>
      match hfind h fn with
      | none => .abort
      | some ndf =>
        match ndf.data with
        | .prim p =>
          let (v, h1) := halloc h ⟨.null, [], .var⟩
          let (d, h2) := halloc h1 ⟨.null, [], .lam arg v⟩
          let h3 := addUplink h2 arg ⟨d, .na⟩
          let res := primApply h3 p d
          match cleanup f h3 d with
          | .ok h4 =>
            match res with
            | none => .ok (false, h4)
            | some q =>
              let (rid, h5) := halloc h4 ⟨.null, [], .prim q⟩
              match hfind h5 app with
              | some nda2 =>
                match spliceUps f h5 rid nda2.uplinks with
                | .ok h6 => .ok (true, h6)
                | .abort => .abort
                | .fuel => .fuel
              | none => .abort
          | .abort => .abort
          | .fuel => .fuel
        | _ => .abort
    | _ => .abort

/-- `static bool hnf_reduce_1(Node* ptr)` (vatican.cpp lines 327-355):
one outermost-leftmost head reduction step; note the source re-reads
`ptr->app.left` after the recursive call on the function position. -/
def hnf1 : Nat → Heap → Nat → Res (Bool × Heap)
  | 0, _, _ => .fuel
  | f + 1, h, n =>
    match hfind h n with
    | none => .abort
    | some nd =>
      match nd.data with
      | .lam bd _ => hnf1 f h bd
      | .var => .ok (false, h)
      | .prim _ => .ok (false, h)
      | .app l _ =>
        match hnf1 f h l with
        | .ok (true, h1) => .ok (true, h1)
        | .ok (false, h1) =>
          match hfind h1 n with
          | some nd2 =>
            match nd2.data with
            | .app l2 _ =>
              match hfind h1 l2 with
              | some ndl =>
                match ndl.data with
                | .lam _ _ =>
                  match beta_reduce f h1 n with
                  | .ok h2 => .ok (true, h2)
                  | .abort => .abort
                  | .fuel => .fuel
                | .prim _ => prim_reduce f h1 n
                | _ => .ok (false, h1)
              | none => .abort
            | _ => .abort
          | none => .abort
        | .abort => .abort
        | .fuel => .fuel

/-- `bool hnf_reduce_1(Head* ptr)`: the public stepper runs on the
dummy root of the head. -/
def hnf_reduce_1 (f : Nat) (h : Heap) (hd : Nat) : Res (Bool × Heap) :=
  hnf1 f h hd

/-- `void hnf_reduce(Head* top) { while (hnf_reduce_1(top)) { } }`. -/
def hnf_reduce : Nat → Heap → Nat → Res Heap
  | 0, _, _ => .fuel
  | f + 1, h, n =>
    match hnf1 f h n with
    | .ok (true, h1) => hnf_reduce f h1 n
    | .ok (false, h1) => .ok h1
    | .abort => .abort
    | .fuel => .fuel

/-- The same `while (hnf_reduce_1(top)) { }` loop as `hnf_reduce`,
additionally reporting the heap that was passed into the final,
false-returning `hnf_reduce_1` call (the state of the graph at the last
no-progress check) next to the final heap. -/
def hnf_last : Nat → Heap → Nat → Res (Heap × Heap)
  | 0, _, _ => .fuel
  | f + 1, h, n =>
    match hnf1 f h n with
    | .ok (true, h1) => hnf_last f h1 n
    | .ok (false, h1) => .ok (h, h1)
    | .abort => .abort
    | .fuel => .fuel

/-- `Node* Var()`: a fresh unbound variable node. -/
def Var (h : Heap) : Nat × Heap :=
  halloc h ⟨.null, [], .var⟩

/-- `Node* Fun(Node* var, Node* body)`: build a lambda and install the
body's uplink; the var gets no uplink (the lambda-to-var edge is
non-owning). -/
def Fun (h : Heap) (v bd : Nat) : Nat × Heap :=
  let (i, h1) := halloc h ⟨.null, [], .lam bd v⟩
  (i, addUplink h1 bd ⟨i, .na⟩)

/-- `Node* App(Node* left, Node* right)`: build an application and
install both children's uplinks. -/
def App (h : Heap) (l r : Nat) : Nat × Heap :=
  let (i, h1) := halloc h ⟨.null, [], .app l r⟩
  let h2 := addUplink h1 l ⟨i, .appl⟩
  (i, addUplink h2 r ⟨i, .appr⟩)

/-- `Node* Prim(PrimNode* node)`. -/
def Prim (h : Heap) (p : Nat) : Nat × Heap :=
  halloc h ⟨.null, [], .prim p⟩

/-- `Head* make_head(Node* body)`: `ret->dummy = Fun(Var(), body)`.
A head is identified with its dummy node id. -/
def make_head (h : Heap) (bd : Nat) : Nat × Heap :=
  let (v, h1) := Var h
  Fun h1 v bd

/-- `Head* copy_head(Head* other)`: `ret->dummy = Fun(Var(),
other->dummy)` — note that the source wraps the other head's dummy
node itself, not the body under it. -/
def copy_head (h : Heap) (hd : Nat) : Nat × Heap :=
  let (v, h1) := Var h
  Fun h1 v hd

/-- `void free_head(Head* head)`: cascade cleanup from the dummy root
(the `Head` wrapper itself lives outside the node heap). -/
def free_head (f : Nat) (h : Heap) (hd : Nat) : Res Heap :=
  cleanup f h hd

/-- `PrimNode* get_prim(Head* expr)` (vatican.cpp lines 468-473):
return the wrapped primitive payload exactly when the body under the
dummy lambda is currently a `Prim` node. -/
def get_prim (h : Heap) (hd : Nat) : Option Nat :=
  match hfind h hd with
  | some nd =>
    match nd.data with
    | .lam bd _ =>
      match hfind h bd with
      | some n2 =>
        match n2.data with
        | .prim p => some p
        | _ => none
      | none => none
    | _ => none
  | none => none

/-! ### Concrete scenarios (built through the public constructors) -/

/-- A single free variable `b` (node 0). -/
def c1b : Nat × Heap := Var ⟨[], 0⟩

/-- `make_head(b)`: head var = 1, dummy lambda = 2. -/
def c1hd : Nat × Heap := make_head c1b.2 c1b.1

/-- `copy_head` of the head above: new head var = 3, new dummy = 4. -/
def c1cp : Nat × Heap := copy_head c1hd.2 c1hd.1

/-- A heap holding one `Prim` node (id 0). -/
def c2h : Heap := (Prim ⟨[], 0⟩ 7).2

/-- Shared-lambda scenario for the cache invariant: `x = 0`,
`f = λx.x = 1`, `a = 2`, `inner = App(f, a) = 3`,
`outer = App(inner, f) = 4` (so `f` is shared), head var = 5,
dummy = 6. -/
def c4h : Heap :=
  let (x, h) := Var ⟨[], 0⟩
  let (f, h) := Fun h x x
  let (a, h) := Var h
  let (inner, h) := App h f a
  let (outer, h) := App h inner f
  (make_head h outer).2

/-- The heap after one `hnf_reduce_1` step on the scenario above. -/
def c4after : Heap :=
  match hnf1 20 c4h 6 with
  | .ok (_, hh) => hh
  | _ => ⟨[], 0⟩

/-- Sharing scenario `(λx. App(x,x)) (App(a,b))`: `a = 0`, `b = 1`,
`s = App(a,b) = 2`, `x = 3`, `App(x,x) = 4`, the lambda = 5,
the redex = 6, head var = 7, dummy = 8. -/
def c5h : Heap :=
  let (a, h) := Var ⟨[], 0⟩
  let (b, h) := Var h
  let (s, h) := App h a b
  let (x, h) := Var h
  let (bo, h) := App h x x
  let (f, h) := Fun h x bo
  let (t, h) := App h f s
  (make_head h t).2

/-- The heap after `hnf_reduce` on the sharing scenario. -/
def c5after : Heap :=
  match hnf_reduce 40 c5h 8 with
  | .ok hh => hh
  | _ => ⟨[], 0⟩

/-- Unused-argument scenario `(λx. a) Ω`: `a = 0`, `x = 1` (no
occurrences), the constant lambda = 2, `Ω = (λy. y y)(λy. y y)` on ids
3-9, the redex = 10, head var = 11, dummy = 12. -/
def c6h : Heap :=
  let (a, h) := Var ⟨[], 0⟩
  let (x, h) := Var h
  let (fn, h) := Fun h x a
  let (y1, h) := Var h
  let (i1, h) := App h y1 y1
  let (d1, h) := Fun h y1 i1
  let (y2, h) := Var h
  let (i2, h) := App h y2 y2
  let (d2, h) := Fun h y2 i2
  let (om, h) := App h d1 d2
  let (t, h) := App h fn om
  (make_head h t).2

/-- The heap after `beta_reduce` of the unused-argument redex. -/
def c6after : Heap :=
  match beta_reduce 30 c6h 10 with
  | .ok hh => hh
  | _ => ⟨[], 0⟩

/-- Identity scenario `(λx. x) y`: `y = 0`, `x = 1`, the identity
lambda = 2, the redex = 3, head var = 4, dummy = 5. -/
def c9h : Heap :=
  let (y, h) := Var ⟨[], 0⟩
  let (x, h) := Var h
  let (f, h) := Fun h x x
  let (t, h) := App h f y
  (make_head h t).2

/-- The heap after `hnf_reduce` on the identity scenario. -/
def c9after : Heap :=
  match hnf_reduce 30 c9h 5 with
  | .ok hh => hh
  | _ => ⟨[], 0⟩

/-- Primitive-in-function-position scenario `App(Prim 5, y)`:
`Prim 5 = 0`, `y = 1`, the application = 2, head var = 3, dummy = 4.
The primitive is not applicable to a variable, so `hnf_reduce` makes
no progress, but each probe of the primitive leaks the temporary
head's Var. -/
def c9h2 : Heap :=
  let (p, h) := Prim ⟨[], 0⟩ 5
  let (y, h) := Var h
  let (t, h) := App h p y
  (make_head h t).2

/-- The heap after `hnf_reduce` on the primitive scenario. -/
def c9after2 : Heap :=
  match hnf_reduce 30 c9h2 4 with
  | .ok hh => hh
  | _ => ⟨[], 0⟩

/-- A primitive directly under a head: `Prim 5 = 0`, head var = 1,
dummy = 2. -/
def c10h : Heap :=
  let (p, h) := Prim ⟨[], 0⟩ 5
  (make_head h p).2

/-- `(λx. x) (Prim 7)` under a head: reducible to a primitive but not
yet one.  `Prim 7 = 0`, `x = 1`, lambda = 2, redex = 3, head var = 4,
dummy = 5. -/
def c10h2 : Heap :=
  let (p, h) := Prim ⟨[], 0⟩ 7
  let (x, h) := Var h
  let (f, h) := Fun h x x
  let (t, h) := App h f p
  (make_head h t).2

/-! ### Predicates used by the general theorems -/

/-- The run did not allocate: the next fresh id is unchanged and no id
that was unallocated became allocated. -/
def NoGrow (h h2 : Heap) : Prop :=
  h2.next = h.next ∧ ∀ i, hfind h i = none → hfind h2 i = none

/-- Garbage extension: `h2` is `h` with possibly more fresh ids
allocated, while every id that was live in `h` still dereferences to
exactly the same node record.  This is the net effect of the
no-progress paths of `hnf_reduce_1` (a failed `prim_reduce` leaks the
temporary head's Var but restores everything else). -/
def GE (h h2 : Heap) : Prop :=
  h.next ≤ h2.next ∧ ∀ i, i < h.next → hfind h2 i = hfind h i

/-- The per-node part of the well-formedness used for the idempotence
theorem: the node's id and all its uplink targets are below the
allocation frontier, and an App node's right child exists and carries
the matching `(parent, APPR)` uplink — spec invariant 1 restricted to
what the no-progress paths rely on (the temporary head built by
`prim_reduce` unlinks the argument, and only this uplink keeps the
argument alive). -/
def nodeOkB (h : Heap) (i : Nat) (nd : Node) : Bool :=
  decide (i < h.next) &&
  nd.uplinks.all (fun u => decide (u.link < h.next)) &&
  (match nd.data with
   | .app _ r =>
     (match hfind h r with
      | some ndr => decide ((⟨i, .appr⟩ : Uplink) ∈ ndr.uplinks)
      | none => false)
   | _ => true)

/-- Decidable fragment of the spec's graph invariants (freshness of
ids plus the argument-edge/uplink correspondence), checked over the
whole heap. -/
def wfC9 (h : Heap) : Bool :=
  h.nodes.all fun p => nodeOkB h p.1 p.2

/-! ### Association list lemmas -/

theorem lookup_setL_ne {l : List (Nat × Node)} {i k : Nat} (v : Node) (hne : i ≠ k) :
    lookupL (setL l k v) i = lookupL l i := by
  induction l with
  | nil => rfl
  | cons p rest ih =>
    obtain ⟨pk, pv⟩ := p
    by_cases hk : k = pk
    · subst hk
      simp [setL, lookupL, hne]
    · simp only [setL, if_neg hk, lookupL]
      by_cases hi : i = pk
      · simp [hi]
      · simp [hi, ih]

theorem lookup_setL_eq {l : List (Nat × Node)} {k : Nat} {d : Node} (v : Node)
    (hfd : lookupL l k = some d) : lookupL (setL l k v) k = some v := by
  induction l with
  | nil => exact Option.noConfusion hfd
  | cons p rest ih =>
    obtain ⟨pk, pv⟩ := p
    by_cases hk : k = pk
    · simp [setL, lookupL, hk]
    · simp only [lookupL, if_neg hk] at hfd
      simp [setL, lookupL, Ne.symm hk, hk, ih hfd]

theorem lookup_setL_none {l : List (Nat × Node)} {i : Nat} (k : Nat) (v : Node)
    (hn : lookupL l i = none) : lookupL (setL l k v) i = none := by
  induction l with
  | nil => rfl
  | cons p rest ih =>
    obtain ⟨pk, pv⟩ := p
    simp only [lookupL] at hn
    by_cases hi : i = pk
    · simp [hi] at hn
    · simp only [if_neg hi] at hn
      by_cases hk : k = pk
      · simp [setL, hk, lookupL, hi, hn]
      · simp [setL, if_neg hk, lookupL, hi, ih hn]

theorem lookup_delL_none {l : List (Nat × Node)} {i : Nat} (k : Nat)
    (hn : lookupL l i = none) : lookupL (delL l k) i = none := by
  induction l with
  | nil => rfl
  | cons p rest ih =>
    obtain ⟨pk, pv⟩ := p
    simp only [lookupL] at hn
    by_cases hi : i = pk
    · simp [hi] at hn
    · simp only [if_neg hi] at hn
      by_cases hk : k = pk
      · simpa [delL, hk] using hn
      · simp [delL, if_neg hk, lookupL, hi, ih hn]

/-! ### NoGrow: the structural operations never allocate -/

theorem noGrow_refl (h : Heap) : NoGrow h h :=
  ⟨rfl, fun _ hi => hi⟩

theorem noGrow_trans {a b c : Heap} (h1 : NoGrow a b) (h2 : NoGrow b c) : NoGrow a c :=
  ⟨h2.1.trans h1.1, fun i hi => h2.2 i (h1.2 i hi)⟩

theorem noGrow_hset (h : Heap) (i : Nat) (nd : Node) : NoGrow h (hset h i nd) :=
  ⟨rfl, fun _ hi => lookup_setL_none i nd hi⟩

theorem noGrow_hdel (h : Heap) (i : Nat) : NoGrow h (hdel h i) :=
  ⟨rfl, fun _ hi => lookup_delL_none i hi⟩

theorem noGrow_setCache (h : Heap) (i : Nat) (c : Cache) : NoGrow h (setCache h i c) := by
  unfold setCache
  cases hfind h i with
  | none => exact noGrow_refl h
  | some nd => exact noGrow_hset h i _

theorem noGrow_addUplink (h : Heap) (child : Nat) (u : Uplink) :
    NoGrow h (addUplink h child u) := by
  unfold addUplink
  cases hfind h child with
  | none => exact noGrow_refl h
  | some nd => exact noGrow_hset h child _

theorem noGrow_unlinkHeap {h h2 : Heap} {child parent : Nat} {ty : UplinkType}
    (heq : unlinkHeap h child parent ty = .ok h2) : NoGrow h h2 := by
  unfold unlinkHeap at heq
  cases hf : hfind h child with
  | none => simp only [hf] at heq; exact Res.noConfusion heq
  | some nd =>
    simp only [hf] at heq
    cases hu : unlinkL nd.uplinks parent ty with
    | none => simp only [hu] at heq; exact Res.noConfusion heq
    | some l =>
      simp only [hu] at heq
      cases heq
      exact noGrow_hset h child _

theorem noGrow_cleanup :
    ∀ (f : Nat) (h : Heap) (n : Nat) (h2 : Heap), cleanup f h n = .ok h2 → NoGrow h h2 := by
  intro f
  induction f with
  | zero => intro h n h2 heq; exact Res.noConfusion heq
  | succ f ih =>
    intro h n h2 heq
    rw [cleanup] at heq
    cases hf : hfind h n with
    | none => simp only [hf] at heq; exact Res.noConfusion heq
    | some nd =>
      simp only [hf] at heq
      cases hu : nd.uplinks with
      | cons u rest => simp only [hu] at heq; cases heq; exact noGrow_refl h
      | nil =>
        simp only [hu] at heq
        cases hd : nd.data with
        | lam bd vr =>
          simp only [hd] at heq
          cases h1e : unlinkHeap h bd n .na with
          | abort => simp only [h1e] at heq; exact Res.noConfusion heq
          | fuel => simp only [h1e] at heq; exact Res.noConfusion heq
          | ok h1 =>
            simp only [h1e] at heq
            cases h2e : cleanup f h1 bd with
            | abort => simp only [h2e] at heq; exact Res.noConfusion heq
            | fuel => simp only [h2e] at heq; exact Res.noConfusion heq
            | ok h2v =>
              simp only [h2e] at heq
              cases heq
              exact noGrow_trans (noGrow_trans (noGrow_unlinkHeap h1e) (ih _ _ _ h2e))
                (noGrow_hdel h2v n)
        | app l r =>
          simp only [hd] at heq
          cases h1e : unlinkHeap h l n .appl with
          | abort => simp only [h1e] at heq; exact Res.noConfusion heq
          | fuel => simp only [h1e] at heq; exact Res.noConfusion heq
          | ok h1 =>
            simp only [h1e] at heq
            cases h2e : cleanup f h1 l with
            | abort => simp only [h2e] at heq; exact Res.noConfusion heq
            | fuel => simp only [h2e] at heq; exact Res.noConfusion heq
            | ok h2v =>
              simp only [h2e] at heq
              cases h3e : unlinkHeap h2v r n .appr with
              | abort => simp only [h3e] at heq; exact Res.noConfusion heq
              | fuel => simp only [h3e] at heq; exact Res.noConfusion heq
              | ok h3 =>
                simp only [h3e] at heq
                cases h4e : cleanup f h3 r with
                | abort => simp only [h4e] at heq; exact Res.noConfusion heq
                | fuel => simp only [h4e] at heq; exact Res.noConfusion heq
                | ok h4 =>
                  simp only [h4e] at heq
                  cases heq
                  exact noGrow_trans (noGrow_trans (noGrow_trans (noGrow_trans
                    (noGrow_unlinkHeap h1e) (ih _ _ _ h2e)) (noGrow_unlinkHeap h3e))
                    (ih _ _ _ h4e)) (noGrow_hdel h4 n)
        | var =>
          simp only [hd] at heq
          cases heq
          exact noGrow_hdel h n
        | prim p =>
          simp only [hd] at heq
          cases heq
          exact noGrow_hdel h n

theorem noGrow_upreplace {f : Nat} {h h2 : Heap} {newchild into : Nat} {ty : UplinkType}
    (heq : upreplace f h newchild into ty = .ok h2) : NoGrow h h2 := by
  unfold upreplace at heq
  cases hf : hfind h into with
  | none => simp only [hf] at heq; exact Res.noConfusion heq
  | some nd =>
    simp only [hf] at heq
    cases hd : nd.data with
    | var => simp only [hd] at heq; exact Res.noConfusion heq
    | prim p => simp only [hd] at heq; exact Res.noConfusion heq
    | app l r =>
      simp only [hd] at heq
      by_cases hty : ty = .appl
      · rw [if_pos hty] at heq
        cases h1e : unlinkHeap h l into .appl with
        | abort => simp only [h1e] at heq; exact Res.noConfusion heq
        | fuel => simp only [h1e] at heq; exact Res.noConfusion heq
        | ok h1 =>
          simp only [h1e] at heq
          exact noGrow_trans (noGrow_trans (noGrow_trans (noGrow_unlinkHeap h1e)
            (noGrow_hset h1 into _)) (noGrow_addUplink _ newchild _))
            (noGrow_cleanup f _ l h2 heq)
      · rw [if_neg hty] at heq
        cases h1e : unlinkHeap h r into .appr with
        | abort => simp only [h1e] at heq; exact Res.noConfusion heq
        | fuel => simp only [h1e] at heq; exact Res.noConfusion heq
        | ok h1 =>
          simp only [h1e] at heq
          exact noGrow_trans (noGrow_trans (noGrow_trans (noGrow_unlinkHeap h1e)
            (noGrow_hset h1 into _)) (noGrow_addUplink _ newchild _))
            (noGrow_cleanup f _ r h2 heq)
    | lam bd vr =>
      simp only [hd] at heq
      cases h1e : unlinkHeap h bd into .na with
      | abort => simp only [h1e] at heq; exact Res.noConfusion heq
      | fuel => simp only [h1e] at heq; exact Res.noConfusion heq
      | ok h1 =>
        simp only [h1e] at heq
        exact noGrow_trans (noGrow_trans (noGrow_trans (noGrow_unlinkHeap h1e)
          (noGrow_hset h1 into _)) (noGrow_addUplink _ newchild _))
          (noGrow_cleanup f _ bd h2 heq)

theorem noGrow_spliceUps :
    ∀ (f : Nat) (h : Heap) (result : Nat) (ups : List Uplink) (h2 : Heap),
      spliceUps f h result ups = .ok h2 → NoGrow h h2 := by
  intro f
  induction f with
  | zero => intro h result ups h2 heq; exact Res.noConfusion heq
  | succ f ih =>
    intro h result ups h2 heq
    cases ups with
    | nil => rw [spliceUps] at heq; cases heq; exact noGrow_refl h
    | cons u rest =>
      rw [spliceUps] at heq
      cases h1e : upreplace f h result u.link u.type with
      | abort => simp only [h1e] at heq; exact Res.noConfusion heq
      | fuel => simp only [h1e] at heq; exact Res.noConfusion heq
      | ok h1 =>
        simp only [h1e] at heq
        exact noGrow_trans (noGrow_upreplace h1e) (ih _ _ _ _ heq)

/-! ### C1: what `copy_head` actually builds -/

/-- C1 (amended): `copy_head(h)` returns a new Head whose dummy's body
is `h`'s dummy node itself (not the body under it), adding exactly one
uplink to `h`'s dummy; both heads denote the same term because the
extra dummy lambda is inert.  Concretely: the new dummy is the fresh
node `h.next + 1` with data `lam hd (h.next)`, the fresh var is
`h.next`, the old dummy `hd` gains exactly the uplink
`(h.next + 1, NA)` at the tail of its list, and every other node is
untouched. -/
theorem copy_head_wraps_dummy (h : Heap) (hd : Nat) (d : Node)
    (hlt : hd < h.next) (hfd : hfind h hd = some d) :
    (copy_head h hd).1 = h.next + 1 ∧
    hfind (copy_head h hd).2 (h.next + 1) = some ⟨.null, [], .lam hd h.next⟩ ∧
    hfind (copy_head h hd).2 h.next = some ⟨.null, [], .var⟩ ∧
    hfind (copy_head h hd).2 hd =
      some ⟨d.cache, d.uplinks ++ [⟨h.next + 1, .na⟩], d.data⟩ ∧
    ∀ i, i ≠ hd → i ≠ h.next → i ≠ h.next + 1 →
      hfind (copy_head h hd).2 i = hfind h i := by
  have hfd2 : lookupL h.nodes hd = some d := hfd
  have hne1 : hd ≠ h.next := Nat.ne_of_lt hlt
  have hne2 : hd ≠ h.next + 1 := by omega
  have hrep : copy_head h hd =
      (h.next + 1,
       ⟨(h.next + 1, ⟨.null, [], .lam hd h.next⟩) ::
        (h.next, ⟨.null, [], .var⟩) ::
        setL h.nodes hd ⟨d.cache, d.uplinks ++ [⟨h.next + 1, .na⟩], d.data⟩,
        h.next + 2⟩) := by
    simp only [copy_head, Var, Fun, halloc, addUplink, hfind, lookupL, hset, setL,
      hne1, hne2, hfd2, if_neg, if_false, if_true]
  refine ⟨by rw [hrep], ?_, ?_, ?_, ?_⟩
  · rw [hrep]; simp [hfind, lookupL]
  · rw [hrep]; simp [hfind, lookupL, Nat.ne_of_lt (Nat.lt_succ_self h.next)]
  · rw [hrep]
    simp only [hfind, lookupL, if_neg hne2, if_neg hne1]
    exact lookup_setL_eq _ hfd2
  · intro i hi1 hi2 hi3
    rw [hrep]
    simp only [hfind, lookupL, if_neg hi3, if_neg hi2]
    exact lookup_setL_ne _ hi1

/-- C1 witness: the theorem applied to the concrete head over a single
free variable. -/
theorem copy_head_wraps_dummy_w :
    ((2 : Nat) < c1hd.2.next ∧ hfind c1hd.2 2 = some ⟨.null, [], .lam 0 1⟩) ∧
    ((copy_head c1hd.2 2).1 = c1hd.2.next + 1 ∧
     hfind (copy_head c1hd.2 2).2 (c1hd.2.next + 1) =
       some ⟨.null, [], .lam 2 c1hd.2.next⟩ ∧
     hfind (copy_head c1hd.2 2).2 c1hd.2.next = some ⟨.null, [], .var⟩ ∧
     hfind (copy_head c1hd.2 2).2 2 =
       some ⟨Cache.null, [] ++ [⟨c1hd.2.next + 1, .na⟩], .lam 0 1⟩ ∧
     ∀ i, i ≠ 2 → i ≠ c1hd.2.next → i ≠ c1hd.2.next + 1 →
       hfind (copy_head c1hd.2 2).2 i = hfind c1hd.2 i) :=
  ⟨⟨by decide, by decide⟩,
   copy_head_wraps_dummy c1hd.2 2 ⟨.null, [], .lam 0 1⟩ (by decide) (by decide)⟩

/-- C1 counterexample: the claim as stated is false on the code.  The
old head's dummy (node 2) has body node 0, but `copy_head` produces a
dummy (node 4) whose body is node 2 — the old dummy itself, not the
body 0 — and node 0 is left completely untouched (no uplink is added
to it).  The two heads are not even observationally interchangeable:
on a head whose body is `Prim 5`, `get_prim` returns the primitive for
the original but `none` for the copy, because the copy's dummy body is
the old dummy lambda rather than the Prim node. -/
theorem copy_head_claim_cex :
    hfind c1hd.2 c1hd.1 = some ⟨.null, [], .lam 0 1⟩ ∧
    c1cp.1 = 4 ∧
    hfind c1cp.2 4 = some ⟨.null, [], .lam 2 3⟩ ∧
    (2 : Nat) ≠ 0 ∧
    hfind c1cp.2 0 = hfind c1hd.2 0 ∧
    get_prim c10h 2 = some 5 ∧
    get_prim (copy_head c10h 2).2 (copy_head c10h 2).1 = none := by decide

/-! ### C2: `upcopy` on a Prim node aborts (missing `break`) -/

/-- C2: for every call of `upcopy` whose `into` node is a `Prim`, the
`NODE_PRIM` arm falls through into `default: std::abort()` (there is no
`break` in the source), so the call aborts instead of caching and
continuing as the spec prescribes. -/
theorem upcopy_prim_aborts (f : Nat) (h : Heap) (nc into : Nat) (ty : UplinkType)
    (nd : Node) (p : Nat) (h1 : hfind h into = some nd) (h2 : nd.data = .prim p) :
    upcopy (f + 1) h nc into ty = .abort := by
  rw [upcopy]
  simp only [h1, h2]

/-- C2 witness: the abort observed on a one-node heap holding a Prim. -/
theorem upcopy_prim_aborts_w : upcopy 1 c2h 0 0 .na = .abort :=
  upcopy_prim_aborts 0 c2h 0 0 .na ⟨.null, [], .prim 7⟩ 7 rfl rfl

/-! ### C3: `free_head` leaks the dummy lambda's Var node -/

/-- C3: build `b = Var()` (node 0) from the empty heap, wrap it in a
head (`make_head` allocates var 1 and dummy 2), then `free_head`.  The
heap does NOT return to its pre-construction state: the dummy's Var
(node 1) is still allocated, because `cleanup` of a `NODE_LAMBDA` never
releases the lambda's `var` child, and a var with no occurrences is
unlinked by nobody. -/
theorem free_head_leaks_dummy_var :
    free_head 10 c1hd.2 c1hd.1 = .ok ⟨[(1, ⟨.null, [], .var⟩)], 3⟩ ∧
    (⟨[(1, ⟨.null, [], .var⟩)], 3⟩ : Heap).nodes.length = 1 ∧
    (⟨[], 0⟩ : Heap).nodes.length = 0 := by decide

/-! ### C4: a reachable Var keeps a stale cache after a public call -/

/-- C4: after one public `hnf_reduce_1` step on the head of
`App(App(f, a), f)` with the shared `f = λx.x` (reducing
`App(f, a)` while `f` stays referenced by the outer App), the Var
node 0 — reachable from the live head through dummy 6 → body 4 →
right child 1 = `f` → `f.var` — still holds `cache = node 2` (the
argument `a`).  `clear` resets the caches of the copied parents but
never resets the seed Var's own cache, so the all-caches-null
invariant is violated on a reachable node. -/
theorem stale_var_cache_after_reduce :
    hnf1 20 c4h 6 = .ok (true, c4after) ∧
    hfind c4after 6 = some ⟨.null, [], .lam 4 5⟩ ∧
    hfind c4after 4 = some ⟨.null, [⟨6, .na⟩], .app 2 1⟩ ∧
    hfind c4after 1 = some ⟨.null, [⟨4, .appr⟩], .lam 0 0⟩ ∧
    hfind c4after 0 = some ⟨Cache.node 2, [⟨1, .na⟩], .var⟩ ∧
    Cache.node 2 ≠ Cache.null := by decide

/-! ### C5: sharing is preserved by the beta step -/

/-- C5: reducing `(λx. App(x,x)) (App(a,b))` with `hnf_reduce` yields a
head whose body is the App node 9 whose left and right children are the
SAME node id 2 — the original argument `App(a, b)` — so the argument
is shared, not duplicated. -/
theorem shared_argument_sharing :
    hnf_reduce 40 c5h 8 = .ok c5after ∧
    hfind c5after 8 = some ⟨.null, [], .lam 9 7⟩ ∧
    hfind c5after 9 = some ⟨.null, [⟨8, .na⟩], .app 2 2⟩ ∧
    hfind c5after 2 = some ⟨.null, [⟨9, .appl⟩, ⟨9, .appr⟩], .app 0 1⟩ := by decide

/-! ### C6: the degenerate beta case copies nothing -/

/-- C6: when `beta_reduce` runs on an App whose left child is a Lambda
whose Var has an empty uplink list, the run is exactly the splice loop
that installs the existing body node into every parent of the App (no
`upcopy`, no `clear`), and whenever it succeeds nothing was allocated:
the next fresh id is unchanged and no unallocated id became allocated
(`NoGrow`). -/
theorem beta_degenerate_no_copy (f : Nat) (h : Heap) (app fn arg bd vr : Nat)
    (nda ndf ndv : Node)
    (h1 : hfind h app = some nda) (h2 : nda.data = .app fn arg)
    (h3 : hfind h fn = some ndf) (h4 : ndf.data = .lam bd vr)
    (h5 : hfind h vr = some ndv) (h6 : ndv.uplinks = []) :
    beta_reduce (f + 1) h app = spliceUps f h bd nda.uplinks ∧
    ∀ h2x, beta_reduce (f + 1) h app = .ok h2x → NoGrow h h2x := by
  have hmain : beta_reduce (f + 1) h app = spliceUps f h bd nda.uplinks := by
    rw [beta_reduce]
    simp only [h1, h2, h3, h4, h5, h6]
  refine ⟨hmain, ?_⟩
  intro h2x heq
  rw [hmain] at heq
  exact noGrow_spliceUps f h bd nda.uplinks h2x heq

/-- C6 witness: the unused-argument scenario `(λx. a) Ω`.  The theorem
applies (the lambda's var, node 1, has no uplinks); additionally the
concrete run shows the redex's one parent (dummy 12) now points
directly at the existing node `a` (node 0), the whole `Ω` subgraph
(nodes 3-9) has been released without being reduced, and no node was
allocated. -/
theorem beta_degenerate_no_copy_w :
    (hfind c6h 10 = some ⟨.null, [⟨12, .na⟩], .app 2 9⟩ ∧
     hfind c6h 2 = some ⟨.null, [⟨10, .appl⟩], .lam 0 1⟩ ∧
     hfind c6h 1 = some ⟨.null, [], .var⟩) ∧
    (beta_reduce 30 c6h 10 = spliceUps 29 c6h 0 [⟨12, .na⟩] ∧
     ∀ h2x, beta_reduce 30 c6h 10 = .ok h2x → NoGrow c6h h2x) ∧
    (beta_reduce 30 c6h 10 = .ok c6after ∧
     hfind c6after 12 = some ⟨.null, [], .lam 0 11⟩ ∧
     hfind c6after 0 = some ⟨.null, [⟨12, .na⟩], .var⟩ ∧
     hfind c6after 9 = none ∧ hfind c6after 7 = none ∧
     hfind c6after 5 = none ∧ hfind c6after 8 = none ∧
     c6after.next = c6h.next) := by
  refine ⟨by decide, ?_, by decide⟩
  exact beta_degenerate_no_copy 29 c6h 10 2 9 0 1
    ⟨.null, [⟨12, .na⟩], .app 2 9⟩ ⟨.null, [⟨10, .appl⟩], .lam 0 1⟩
    ⟨.null, [], .var⟩ rfl rfl rfl rfl rfl rfl

/-! ### C10: `get_prim` inspects without reducing or mutating -/

/-- C10: `get_prim` is a pure function of the heap (it cannot mutate by
its type) and returns `some p` exactly when the body under the head's
dummy lambda is currently a `Prim p` node; in every other case —
including bodies that would reduce to a primitive — it returns
`none`. -/
theorem get_prim_no_reduction (h : Heap) (hd bd vr : Nat) (nd : Node)
    (h1 : hfind h hd = some nd) (h2 : nd.data = .lam bd vr) (p : Nat) :
    get_prim h hd = some p ↔ ∃ n2, hfind h bd = some n2 ∧ n2.data = .prim p := by
  rw [get_prim]
  simp only [h1, h2]
  cases hb : hfind h bd with
  | none => simp
  | some n2 =>
    cases hnd : n2.data with
    | app l r => simp [hnd]
    | lam b v => simp [hnd]
    | var => simp [hnd]
    | prim q => simp [hnd]

/-- C10 witness: with `Prim 5` directly under the head, `get_prim`
returns `some 5` (via the theorem); with the redex `(λx. x) (Prim 7)`
under the head, `get_prim` returns `none` even though reducing first
and then asking yields `some 7`. -/
theorem get_prim_no_reduction_w :
    get_prim c10h 2 = some 5 ∧
    get_prim c10h2 5 = none ∧
    (match hnf_reduce 30 c10h2 5 with
     | .ok hh => get_prim hh 5
     | _ => none) = some 7 :=
  ⟨(get_prim_no_reduction c10h 2 0 1 ⟨.null, [], .lam 0 1⟩ rfl rfl 5).mpr
      ⟨⟨.null, [⟨2, .na⟩], .prim 5⟩, rfl, rfl⟩,
   by decide, by decide⟩

/-! ### Garbage extension and the wfC9 invariant -/

theorem ge_refl (h : Heap) : GE h h :=
  ⟨Nat.le_refl _, fun _ _ => rfl⟩

theorem ge_trans {a b c : Heap} (h1 : GE a b) (h2 : GE b c) : GE a c :=
  ⟨Nat.le_trans h1.1 h2.1, fun i hi =>
    (h2.2 i (Nat.lt_of_lt_of_le hi h1.1)).trans (h1.2 i hi)⟩

theorem ge_garbage (h : Heap) (nd0 : Node) (k : Nat) :
    GE h ⟨(h.next, nd0) :: h.nodes, h.next + k⟩ := by
  refine ⟨Nat.le_add_right _ _, fun i hi => ?_⟩
  simp [hfind, lookupL, Nat.ne_of_lt hi]

theorem lookupL_mem : ∀ {l : List (Nat × Node)} {i : Nat} {nd : Node},
    lookupL l i = some nd → (i, nd) ∈ l := by
  intro l
  induction l with
  | nil => intro i nd hf; exact Option.noConfusion hf
  | cons p rest ih =>
    intro i nd hf
    obtain ⟨pk, pv⟩ := p
    simp only [lookupL] at hf
    by_cases hi : i = pk
    · rw [if_pos hi] at hf
      cases hf
      subst hi
      exact List.mem_cons_self _ _
    · rw [if_neg hi] at hf
      exact List.mem_cons_of_mem _ (ih hf)

theorem wf_key_lt {h : Heap} {i : Nat} {nd : Node} (hw : wfC9 h = true)
    (hf : hfind h i = some nd) : i < h.next := by
  have hok := (List.all_eq_true.mp hw) _ (lookupL_mem hf)
  unfold nodeOkB at hok
  simp only [Bool.and_eq_true, decide_eq_true_eq] at hok
  exact hok.1.1

theorem wf_links {h : Heap} {i : Nat} {nd : Node} (hw : wfC9 h = true)
    (hf : hfind h i = some nd) : ∀ u ∈ nd.uplinks, u.link < h.next := by
  have hok := (List.all_eq_true.mp hw) _ (lookupL_mem hf)
  unfold nodeOkB at hok
  simp only [Bool.and_eq_true, decide_eq_true_eq, List.all_eq_true] at hok
  exact hok.1.2

theorem wf_appr {h : Heap} {i : Nat} {nd : Node} {l r : Nat} (hw : wfC9 h = true)
    (hf : hfind h i = some nd) (hd : nd.data = .app l r) :
    ∃ ndr, hfind h r = some ndr ∧ (⟨i, .appr⟩ : Uplink) ∈ ndr.uplinks := by
  have hok := (List.all_eq_true.mp hw) _ (lookupL_mem hf)
  unfold nodeOkB at hok
  simp only [Bool.and_eq_true] at hok
  have h3 := hok.2
  simp only [hd] at h3
  cases hfr : hfind h r with
  | none =>
    simp only [hfr] at h3
    exact Bool.noConfusion h3
  | some ndr =>
    simp only [hfr, decide_eq_true_eq] at h3
    exact ⟨ndr, rfl, h3⟩

theorem wf_garbage {h : Heap} (hw : wfC9 h = true) :
    wfC9 ⟨(h.next, ⟨.null, [], .var⟩) :: h.nodes, h.next + 2⟩ = true := by
  unfold wfC9 at hw ⊢
  rw [List.all_cons, Bool.and_eq_true]
  constructor
  · unfold nodeOkB
    simp
  · rw [List.all_eq_true]
    intro p hp
    have hok := (List.all_eq_true.mp hw) p hp
    obtain ⟨pk, pv⟩ := p
    unfold nodeOkB at hok ⊢
    simp only [Bool.and_eq_true, decide_eq_true_eq, List.all_eq_true] at hok ⊢
    obtain ⟨⟨hk, hu⟩, hdata⟩ := hok
    refine ⟨⟨by omega, fun u hu2 => by have := hu u hu2; omega⟩, ?_⟩
    cases hd : pv.data with
    | app a r =>
      simp only [hd] at hdata ⊢
      cases hfr : hfind h r with
      | none =>
        simp only [hfr] at hdata
        exact Bool.noConfusion hdata
      | some ndr =>
        simp only [hfr] at hdata
        have hrlt : r < h.next := wf_key_lt hw hfr
        have hfr2 : hfind ⟨(h.next, ⟨.null, [], .var⟩) :: h.nodes, h.next + 2⟩ r
            = some ndr := by
          simp only [hfind, lookupL, if_neg (Nat.ne_of_lt hrlt)]
          exact hfr
        simp only [hfr2]
        exact hdata
    | lam b v => simp only [hd]
    | var => simp only [hd]
    | prim p2 => simp only [hd]

theorem unlinkL_append : ∀ (ups : List Uplink) (d : Nat) (t : UplinkType),
    (∀ u ∈ ups, u.link ≠ d) → unlinkL (ups ++ [⟨d, t⟩]) d t = some ups := by
  intro ups d t
  induction ups with
  | nil =>
    intro _
    simp [unlinkL]
  | cons u rest ih =>
    intro hne
    have hu : u.link ≠ d := hne u (List.mem_cons_self _ _)
    simp only [List.cons_append, unlinkL]
    rw [if_neg (fun hc => hu hc.1)]
    show (match unlinkL (rest ++ [⟨d, t⟩]) d t with
          | some l => some (u :: l)
          | none => none) = some (u :: rest)
    rw [ih (fun v hv => hne v (List.mem_cons_of_mem _ hv))]

theorem setL_setL : ∀ (l : List (Nat × Node)) (i : Nat) (a b : Node),
    setL (setL l i a) i b = setL l i b := by
  intro l i a b
  induction l with
  | nil => rfl
  | cons p rest ih =>
    obtain ⟨pk, pv⟩ := p
    by_cases hi : i = pk
    · simp [setL, hi]
    · simp [setL, hi, ih]

theorem setL_same : ∀ {l : List (Nat × Node)} {i : Nat} {nd : Node},
    lookupL l i = some nd → setL l i nd = l := by
  intro l
  induction l with
  | nil => intro i nd _; rfl
  | cons p rest ih =>
    intro i nd hf
    obtain ⟨pk, pv⟩ := p
    simp only [lookupL] at hf
    by_cases hi : i = pk
    · rw [if_pos hi] at hf
      cases hf
      simp [setL, hi]
    · rw [if_neg hi] at hf
      simp [setL, hi, ih hf]

theorem hnf1_ok_find {f : Nat} {h : Heap} {n : Nat} {res : Bool × Heap}
    (heq : hnf1 f h n = .ok res) : ∃ nd, hfind h n = some nd := by
  cases f with
  | zero => exact Res.noConfusion heq
  | succ f =>
    rw [hnf1] at heq
    cases hf : hfind h n with
    | none => simp only [hf] at heq; exact Res.noConfusion heq
    | some nd => exact ⟨nd, rfl⟩

/-! ### Exact behaviour of the no-progress path of `prim_reduce`

`prim_reduce` wraps the argument in a temporary head (`make_head`
allocates a Var at id `nx = h.next` and a dummy lambda at `nx + 1`,
and appends the uplink `(nx + 1, NA)` to the argument), consults the
primitive, and frees the temporary head again.  The next lemmas
compute this sequence symbolically on the explicit heap shapes. -/

theorem addUplink_temphead (l : List (Nat × Node)) (nx arg : Nat) (ndarg : Node)
    (hargd : arg ≠ nx + 1) (hargv : arg ≠ nx)
    (hfr : lookupL l arg = some ndarg) :
    addUplink ⟨(nx + 1, ⟨.null, [], .lam arg nx⟩) ::
        (nx, ⟨.null, [], .var⟩) :: l, nx + 1 + 1⟩ arg ⟨nx + 1, .na⟩ =
      ⟨(nx + 1, ⟨.null, [], .lam arg nx⟩) :: (nx, ⟨.null, [], .var⟩) ::
        setL l arg ⟨ndarg.cache, ndarg.uplinks ++ [⟨nx + 1, .na⟩], ndarg.data⟩,
        nx + 1 + 1⟩ := by
  unfold addUplink
  have hf2 : hfind ⟨(nx + 1, ⟨.null, [], .lam arg nx⟩) ::
      (nx, ⟨.null, [], .var⟩) :: l, nx + 1 + 1⟩ arg = some ndarg := by
    simp only [hfind, lookupL, if_neg hargd, if_neg hargv]
    exact hfr
  rw [hf2]
  unfold hset
  simp [setL, hargd, hargv]

theorem primApply_temphead (l : List (Nat × Node)) (nx arg : Nat) (ndarg : Node)
    (p : Nat) (hargd : arg ≠ nx + 1) (hargv : arg ≠ nx)
    (hfr : lookupL l arg = some ndarg) :
    primApply ⟨(nx + 1, ⟨.null, [], .lam arg nx⟩) :: (nx, ⟨.null, [], .var⟩) ::
        setL l arg ⟨ndarg.cache, ndarg.uplinks ++ [⟨nx + 1, .na⟩], ndarg.data⟩,
        nx + 1 + 1⟩ p (nx + 1) =
      (match ndarg.data with
       | .prim q => some (p + q)
       | _ => none) := by
  unfold primApply
  have hfd : hfind ⟨(nx + 1, ⟨.null, [], .lam arg nx⟩) :: (nx, ⟨.null, [], .var⟩) ::
      setL l arg ⟨ndarg.cache, ndarg.uplinks ++ [⟨nx + 1, .na⟩], ndarg.data⟩,
      nx + 1 + 1⟩ (nx + 1) = some ⟨.null, [], .lam arg nx⟩ := by
    simp [hfind, lookupL]
  have hfa : hfind ⟨(nx + 1, ⟨.null, [], .lam arg nx⟩) :: (nx, ⟨.null, [], .var⟩) ::
      setL l arg ⟨ndarg.cache, ndarg.uplinks ++ [⟨nx + 1, .na⟩], ndarg.data⟩,
      nx + 1 + 1⟩ arg =
      some ⟨ndarg.cache, ndarg.uplinks ++ [⟨nx + 1, .na⟩], ndarg.data⟩ := by
    simp only [hfind, lookupL, if_neg hargd, if_neg hargv]
    exact lookup_setL_eq _ hfr
  simp only [hfd, hfa]

theorem unlink_temphead (l : List (Nat × Node)) (nx arg : Nat) (ndarg : Node)
    (hargd : arg ≠ nx + 1) (hargv : arg ≠ nx)
    (hfr : lookupL l arg = some ndarg)
    (hlinks : ∀ u ∈ ndarg.uplinks, u.link ≠ nx + 1) :
    unlinkHeap ⟨(nx + 1, ⟨.null, [], .lam arg nx⟩) :: (nx, ⟨.null, [], .var⟩) ::
        setL l arg ⟨ndarg.cache, ndarg.uplinks ++ [⟨nx + 1, .na⟩], ndarg.data⟩,
        nx + 1 + 1⟩ arg (nx + 1) .na =
      .ok ⟨(nx + 1, ⟨.null, [], .lam arg nx⟩) :: (nx, ⟨.null, [], .var⟩) :: l,
        nx + 1 + 1⟩ := by
  unfold unlinkHeap
  have hfa : hfind ⟨(nx + 1, ⟨.null, [], .lam arg nx⟩) :: (nx, ⟨.null, [], .var⟩) ::
      setL l arg ⟨ndarg.cache, ndarg.uplinks ++ [⟨nx + 1, .na⟩], ndarg.data⟩,
      nx + 1 + 1⟩ arg =
      some ⟨ndarg.cache, ndarg.uplinks ++ [⟨nx + 1, .na⟩], ndarg.data⟩ := by
    simp only [hfind, lookupL, if_neg hargd, if_neg hargv]
    exact lookup_setL_eq _ hfr
  simp only [hfa, unlinkL_append _ _ _ hlinks]
  unfold hset
  simp only [setL, if_neg hargd, if_neg hargv]
  rw [setL_setL]
  have heta : (⟨ndarg.cache, ndarg.uplinks, ndarg.data⟩ : Node) = ndarg := rfl
  rw [heta, setL_same hfr]

theorem cleanup_temphead (f : Nat) (l : List (Nat × Node)) (nx arg : Nat)
    (ndarg : Node) (hargd : arg ≠ nx + 1) (hargv : arg ≠ nx)
    (hfr : lookupL l arg = some ndarg)
    (hlinks : ∀ u ∈ ndarg.uplinks, u.link ≠ nx + 1)
    (hne : ndarg.uplinks ≠ []) :
    cleanup (f + 2) ⟨(nx + 1, ⟨.null, [], .lam arg nx⟩) ::
        (nx, ⟨.null, [], .var⟩) ::
        setL l arg ⟨ndarg.cache, ndarg.uplinks ++ [⟨nx + 1, .na⟩], ndarg.data⟩,
        nx + 1 + 1⟩ (nx + 1) =
      .ok ⟨(nx, ⟨.null, [], .var⟩) :: l, nx + 1 + 1⟩ := by
  rw [cleanup]
  have hfd : hfind ⟨(nx + 1, ⟨.null, [], .lam arg nx⟩) :: (nx, ⟨.null, [], .var⟩) ::
      setL l arg ⟨ndarg.cache, ndarg.uplinks ++ [⟨nx + 1, .na⟩], ndarg.data⟩,
      nx + 1 + 1⟩ (nx + 1) = some ⟨.null, [], .lam arg nx⟩ := by
    simp [hfind, lookupL]
  simp only [hfd, unlink_temphead l nx arg ndarg hargd hargv hfr hlinks]
  have hclean2 : cleanup (f + 1)
      ⟨(nx + 1, ⟨.null, [], .lam arg nx⟩) :: (nx, ⟨.null, [], .var⟩) :: l,
        nx + 1 + 1⟩ arg =
      .ok ⟨(nx + 1, ⟨.null, [], .lam arg nx⟩) :: (nx, ⟨.null, [], .var⟩) :: l,
        nx + 1 + 1⟩ := by
    rw [cleanup]
    have hfa2 : hfind ⟨(nx + 1, ⟨.null, [], .lam arg nx⟩) ::
        (nx, ⟨.null, [], .var⟩) :: l, nx + 1 + 1⟩ arg = some ndarg := by
      simp only [hfind, lookupL, if_neg hargd, if_neg hargv]
      exact hfr
    simp only [hfa2]
    cases hu : ndarg.uplinks with
    | nil => exact absurd hu hne
    | cons u us => simp only [hu]
  simp only [hclean2]
  unfold hdel
  simp [delL]

/-- A `prim_reduce` call whose argument is not itself a primitive makes
no progress: the primitive declines, the temporary head is freed, and
the only net effect on the heap is the leaked Var of the temporary
head's dummy lambda (ids `h.next` and `h.next + 1` were used, the
dummy at `h.next + 1` is freed again, the Var at `h.next` stays). -/
theorem prim_reduce_run (f : Nat) (h : Heap) (app fn arg : Nat)
    (nda ndf ndarg : Node) (p : Nat)
    (ha : hfind h app = some nda) (hda : nda.data = .app fn arg)
    (hff : hfind h fn = some ndf) (hdf : ndf.data = .prim p)
    (harg : hfind h arg = some ndarg)
    (hargd : arg ≠ h.next + 1) (hargv : arg ≠ h.next)
    (hlinks : ∀ u ∈ ndarg.uplinks, u.link ≠ h.next + 1)
    (hne : ndarg.uplinks ≠ [])
    (hnp : ∀ q, ndarg.data ≠ .prim q) :
    prim_reduce (f + 2) h app =
      .ok (false, ⟨(h.next, ⟨.null, [], .var⟩) :: h.nodes, h.next + 1 + 1⟩) := by
  have hfr : lookupL h.nodes arg = some ndarg := harg
  unfold prim_reduce
  simp only [ha, hda, hff, hdf, halloc,
    addUplink_temphead h.nodes h.next arg ndarg hargd hargv hfr,
    primApply_temphead h.nodes h.next arg ndarg p hargd hargv hfr,
    cleanup_temphead f h.nodes h.next arg ndarg hargd hargv hfr hlinks hne]

/-- With only one unit of fuel the cleanup of the temporary head runs
out before reaching the argument. -/
theorem cleanup_temphead_one (l : List (Nat × Node)) (nx arg : Nat)
    (ndarg : Node) (hargd : arg ≠ nx + 1) (hargv : arg ≠ nx)
    (hfr : lookupL l arg = some ndarg)
    (hlinks : ∀ u ∈ ndarg.uplinks, u.link ≠ nx + 1) :
    cleanup 1 ⟨(nx + 1, ⟨.null, [], .lam arg nx⟩) ::
        (nx, ⟨.null, [], .var⟩) ::
        setL l arg ⟨ndarg.cache, ndarg.uplinks ++ [⟨nx + 1, .na⟩], ndarg.data⟩,
        nx + 1 + 1⟩ (nx + 1) = .fuel := by
  rw [cleanup]
  have hfd : hfind ⟨(nx + 1, ⟨.null, [], .lam arg nx⟩) :: (nx, ⟨.null, [], .var⟩) ::
      setL l arg ⟨ndarg.cache, ndarg.uplinks ++ [⟨nx + 1, .na⟩], ndarg.data⟩,
      nx + 1 + 1⟩ (nx + 1) = some ⟨.null, [], .lam arg nx⟩ := by
    simp [hfind, lookupL]
  simp only [hfd, unlink_temphead l nx arg ndarg hargd hargv hfr hlinks]
  rfl

/-- Conversely, whenever `prim_reduce` reports no progress, the
argument was not a primitive, the fuel sufficed for the cleanup, and
the resulting heap is exactly the input heap plus the leaked Var. -/
theorem prim_reduce_false_inv (f : Nat) (h : Heap) (app fn arg : Nat)
    (nda ndf ndarg : Node) (p : Nat) (h2 : Heap)
    (ha : hfind h app = some nda) (hda : nda.data = .app fn arg)
    (hff : hfind h fn = some ndf) (hdf : ndf.data = .prim p)
    (harg : hfind h arg = some ndarg)
    (hargd : arg ≠ h.next + 1) (hargv : arg ≠ h.next)
    (hlinks : ∀ u ∈ ndarg.uplinks, u.link ≠ h.next + 1)
    (hne : ndarg.uplinks ≠ [])
    (hres : prim_reduce f h app = .ok (false, h2)) :
    (∀ q, ndarg.data ≠ .prim q) ∧ 2 ≤ f ∧
      h2 = ⟨(h.next, ⟨.null, [], .var⟩) :: h.nodes, h.next + 1 + 1⟩ := by
  have hfr : lookupL h.nodes arg = some ndarg := harg
  cases f with
  | zero =>
    exfalso
    unfold prim_reduce at hres
    simp only [ha, hda, hff, hdf, halloc,
      addUplink_temphead h.nodes h.next arg ndarg hargd hargv hfr,
      cleanup] at hres
    exact Res.noConfusion hres
  | succ f1 =>
    cases f1 with
    | zero =>
      exfalso
      unfold prim_reduce at hres
      simp only [ha, hda, hff, hdf, halloc,
        addUplink_temphead h.nodes h.next arg ndarg hargd hargv hfr,
        cleanup_temphead_one h.nodes h.next arg ndarg hargd hargv hfr hlinks]
        at hres
      exact Res.noConfusion hres
    | succ f2 =>
      by_cases hnp : ∀ q, ndarg.data ≠ .prim q
      · have hrun := prim_reduce_run f2 h app fn arg nda ndf ndarg p ha hda
          hff hdf harg hargd hargv hlinks hne hnp
        rw [hrun] at hres
        refine ⟨hnp, by omega, ?_⟩
        injection hres with h3
        injection h3 with h4 h5
        exact h5.symm
      · exfalso
        push_neg at hnp
        obtain ⟨q, hdd⟩ := hnp
        unfold prim_reduce at hres
        simp only [ha, hda, hff, hdf, halloc,
          addUplink_temphead h.nodes h.next arg ndarg hargd hargv hfr,
          primApply_temphead h.nodes h.next arg ndarg p hargd hargv hfr,
          cleanup_temphead f2 h.nodes h.next arg ndarg hargd hargv hfr hlinks hne]
          at hres
        simp only [hdd] at hres
        split at hres
        · split at hres
          · injection hres with h3
            injection h3 with h4 h5
            exact Bool.noConfusion h4
          · exact Res.noConfusion hres
          · exact Res.noConfusion hres
        · exact Res.noConfusion hres

/-- A no-progress step of `hnf_reduce_1` on a heap satisfying `wfC9`
only garbage-extends the heap (a failed primitive probe leaks the
temporary head's Var, nothing else changes), preserves `wfC9`, and is
stable: on every well-formed garbage extension of its input heap the
same call still reports no progress and again only garbage-extends. -/
theorem hnf1_false_ge (f : Nat) : ∀ (h : Heap) (n : Nat) (h1 : Heap),
    wfC9 h = true → hnf1 f h n = .ok (false, h1) →
    GE h h1 ∧ wfC9 h1 = true ∧
      ∀ hB, GE h hB → wfC9 hB = true →
        ∃ hC, hnf1 f hB n = .ok (false, hC) ∧ GE hB hC ∧ wfC9 hC = true := by
  induction f with
  | zero =>
    intro h n h1 _ hrun
    exact Res.noConfusion hrun
  | succ f IH =>
    intro h n h1 hwf hrun
    rw [hnf1] at hrun
    cases hfn : hfind h n with
    | none =>
      simp only [hfn] at hrun
      exact Res.noConfusion hrun
    | some nd =>
      simp only [hfn] at hrun
      have hnlt : n < h.next := wf_key_lt hwf hfn
      cases hdd : nd.data with
      | var =>
        simp only [hdd] at hrun
        injection hrun with hpair
        injection hpair with hb hh
        subst hh
        refine ⟨ge_refl h, hwf, ?_⟩
        intro hB hgeB hwfB
        refine ⟨hB, ?_, ge_refl hB, hwfB⟩
        rw [hnf1]
        have hfnB : hfind hB n = some nd := (hgeB.2 n hnlt).trans hfn
        simp only [hfnB, hdd]
      | prim p0 =>
        simp only [hdd] at hrun
        injection hrun with hpair
        injection hpair with hb hh
        subst hh
        refine ⟨ge_refl h, hwf, ?_⟩
        intro hB hgeB hwfB
        refine ⟨hB, ?_, ge_refl hB, hwfB⟩
        rw [hnf1]
        have hfnB : hfind hB n = some nd := (hgeB.2 n hnlt).trans hfn
        simp only [hfnB, hdd]
      | lam bd vr =>
        simp only [hdd] at hrun
        obtain ⟨hge1, hwf1, hstab⟩ := IH h bd h1 hwf hrun
        refine ⟨hge1, hwf1, ?_⟩
        intro hB hgeB hwfB
        obtain ⟨hC, hrunC, hgeC, hwfC⟩ := hstab hB hgeB hwfB
        refine ⟨hC, ?_, hgeC, hwfC⟩
        rw [hnf1]
        have hfnB : hfind hB n = some nd := (hgeB.2 n hnlt).trans hfn
        simp only [hfnB, hdd]
        exact hrunC
      | app l r =>
        simp only [hdd] at hrun
        cases hl : hnf1 f h l with
        | abort =>
          simp only [hl] at hrun
          exact Res.noConfusion hrun
        | fuel =>
          simp only [hl] at hrun
          exact Res.noConfusion hrun
        | ok pr =>
          obtain ⟨b, h1f⟩ := pr
          cases b with
          | true =>
            simp only [hl] at hrun
            injection hrun with hpair
            injection hpair with hb hh
            exact Bool.noConfusion hb
          | false =>
            simp only [hl] at hrun
            obtain ⟨hge1, hwf1, hstab⟩ := IH h l h1f hwf hl
            have hfn1 : hfind h1f n = some nd := (hge1.2 n hnlt).trans hfn
            simp only [hfn1, hdd] at hrun
            obtain ⟨ndl, hfl⟩ := hnf1_ok_find hl
            have hllt : l < h.next := wf_key_lt hwf hfl
            have hfl1 : hfind h1f l = some ndl := (hge1.2 l hllt).trans hfl
            simp only [hfl1] at hrun
            obtain ⟨ndarg, hfr, hupr⟩ := wf_appr hwf hfn hdd
            have hrlt : r < h.next := wf_key_lt hwf hfr
            have hfr1 : hfind h1f r = some ndarg := (hge1.2 r hrlt).trans hfr
            cases hdl : ndl.data with
            | lam bd2 vr2 =>
              simp only [hdl] at hrun
              cases hbr : beta_reduce f h1f n with
              | ok h2b =>
                simp only [hbr] at hrun
                injection hrun with hpair
                injection hpair with hb hh
                exact Bool.noConfusion hb
              | abort =>
                simp only [hbr] at hrun
                exact Res.noConfusion hrun
              | fuel =>
                simp only [hbr] at hrun
                exact Res.noConfusion hrun
            | var =>
              simp only [hdl] at hrun
              injection hrun with hpair
              injection hpair with hb hh
              subst hh
              refine ⟨hge1, hwf1, ?_⟩
              intro hB hgeB hwfB
              obtain ⟨hC, hrunC, hgeC, hwfC⟩ := hstab hB hgeB hwfB
              refine ⟨hC, ?_, hgeC, hwfC⟩
              rw [hnf1]
              have hgeBC := ge_trans hgeB hgeC
              have hfnB : hfind hB n = some nd := (hgeB.2 n hnlt).trans hfn
              have hfnC : hfind hC n = some nd := (hgeBC.2 n hnlt).trans hfn
              have hflC : hfind hC l = some ndl := (hgeBC.2 l hllt).trans hfl
              simp only [hfnB, hdd, hrunC, hfnC, hflC, hdl]
            | app a2 b2 =>
              simp only [hdl] at hrun
              injection hrun with hpair
              injection hpair with hb hh
              subst hh
              refine ⟨hge1, hwf1, ?_⟩
              intro hB hgeB hwfB
              obtain ⟨hC, hrunC, hgeC, hwfC⟩ := hstab hB hgeB hwfB
              refine ⟨hC, ?_, hgeC, hwfC⟩
              rw [hnf1]
              have hgeBC := ge_trans hgeB hgeC
              have hfnB : hfind hB n = some nd := (hgeB.2 n hnlt).trans hfn
              have hfnC : hfind hC n = some nd := (hgeBC.2 n hnlt).trans hfn
              have hflC : hfind hC l = some ndl := (hgeBC.2 l hllt).trans hfl
              simp only [hfnB, hdd, hrunC, hfnC, hflC, hdl]
            | prim p0 =>
              simp only [hdl] at hrun
              have hargd1 : r ≠ h1f.next + 1 := by
                have := hge1.1
                omega
              have hargv1 : r ≠ h1f.next := by
                have := hge1.1
                omega
              have hlinks1 : ∀ u ∈ ndarg.uplinks, u.link ≠ h1f.next + 1 := by
                intro u hu
                have := wf_links hwf hfr u hu
                have := hge1.1
                omega
              have hne1 : ndarg.uplinks ≠ [] := List.ne_nil_of_mem hupr
              obtain ⟨hnp, hfge, hh1⟩ := prim_reduce_false_inv f h1f n l r nd ndl
                ndarg p0 h1 hfn1 hdd hfl1 hdl hfr1 hargd1 hargv1 hlinks1 hne1 hrun
              subst hh1
              refine ⟨ge_trans hge1 (ge_garbage h1f _ 2), wf_garbage hwf1, ?_⟩
              intro hB hgeB hwfB
              obtain ⟨hC, hrunC, hgeC, hwfC⟩ := hstab hB hgeB hwfB
              have hgeBC := ge_trans hgeB hgeC
              have hfnB : hfind hB n = some nd := (hgeB.2 n hnlt).trans hfn
              have hfnC : hfind hC n = some nd := (hgeBC.2 n hnlt).trans hfn
              have hflC : hfind hC l = some ndl := (hgeBC.2 l hllt).trans hfl
              have hfrC : hfind hC r = some ndarg := (hgeBC.2 r hrlt).trans hfr
              obtain ⟨f2, rfl⟩ : ∃ f2, f = f2 + 2 := ⟨f - 2, by omega⟩
              have hargdC : r ≠ hC.next + 1 := by
                have := hgeBC.1
                omega
              have hargvC : r ≠ hC.next := by
                have := hgeBC.1
                omega
              have hlinksC : ∀ u ∈ ndarg.uplinks, u.link ≠ hC.next + 1 := by
                intro u hu
                have := wf_links hwf hfr u hu
                have := hgeBC.1
                omega
              have hrunP := prim_reduce_run f2 hC n l r nd ndl ndarg p0
                hfnC hdd hflC hdl hfrC hargdC hargvC hlinksC hne1 hnp
              refine ⟨⟨(hC.next, ⟨.null, [], .var⟩) :: hC.nodes, hC.next + 1 + 1⟩,
                ?_, ge_trans hgeC (ge_garbage hC _ 2), wf_garbage hwfC⟩
              rw [hnf1]
              simp only [hfnB, hdd, hrunC, hfnC, hflC, hdl]
              exact hrunP

/-- `hnf_last` is the `hnf_reduce` loop with extra reporting: it
returns the same final heap, and the reported pair is exactly the
input heap and output heap of the final, false-returning
`hnf_reduce_1` step of the loop. -/
theorem hnf_last_sound (f : Nat) : ∀ (h : Heap) (n : Nat) (hp h2 : Heap),
    hnf_last f h n = .ok (hp, h2) →
    hnf_reduce f h n = .ok h2 ∧ ∃ f0, hnf1 f0 hp n = .ok (false, h2) := by
  induction f with
  | zero =>
    intro h n hp h2 hlast
    exact Res.noConfusion hlast
  | succ f IH =>
    intro h n hp h2 hlast
    rw [hnf_last] at hlast
    rw [hnf_reduce]
    cases hstep : hnf1 f h n with
    | abort =>
      simp only [hstep] at hlast
      exact Res.noConfusion hlast
    | fuel =>
      simp only [hstep] at hlast
      exact Res.noConfusion hlast
    | ok pr =>
      obtain ⟨b, h1⟩ := pr
      cases b with
      | true =>
        simp only [hstep] at hlast ⊢
        exact IH h1 n hp h2 hlast
      | false =>
        simp only [hstep] at hlast ⊢
        injection hlast with hpair
        injection hpair with hhp hh2
        subst hhp
        subst hh2
        exact ⟨rfl, f, hstep⟩

/-- **C9.** Idempotence of head normalisation: whenever the
`hnf_reduce` loop terminates (witnessed by `hnf_last`, which runs the
same `while (hnf_reduce_1(top)) { }` loop and additionally reports the
heap entering the final step) and the graph at that final no-progress
check satisfies the decidable well-formedness invariant `wfC9`, an
immediately following call to `hnf_reduce_1` again returns `false`:
the graph is in head normal form and no further step reports progress.
The follow-up call can at most garbage-extend the heap (a declined
primitive probe leaks the temporary head's Var); every live node is
untouched. -/
theorem hnf_reduce_idempotent (f n : Nat) (h hp h2 : Heap)
    (hlast : hnf_last f h n = .ok (hp, h2))
    (hwf : wfC9 hp = true) :
    hnf_reduce f h n = .ok h2 ∧
      ∃ f2 h3, hnf_reduce_1 f2 h2 n = .ok (false, h3) ∧ GE h2 h3 := by
  obtain ⟨hred, f0, hstep⟩ := hnf_last_sound f h n hp h2 hlast
  obtain ⟨hge, hwf2, hstab⟩ := hnf1_false_ge f0 hp n h2 hwf hstep
  obtain ⟨hC, hrunC, hgeC, _⟩ := hstab h2 hge hwf2
  exact ⟨hred, f0, hC, hrunC, hgeC⟩

/-- Witness for C9 on two concrete graphs: the identity redex
`(λx. x) y` (where the follow-up step changes nothing) and the
primitive application `App(Prim 5, y)` (where `hnf_reduce` never makes
progress and every follow-up probe merely leaks the temporary head's
Var, so the conclusion's garbage extension is genuinely needed). -/
theorem hnf_reduce_idempotent_w :
    (wfC9 c9after = true ∧ hnf_reduce 30 c9h 5 = .ok c9after ∧
      ∃ f2 h3, hnf_reduce_1 f2 c9after 5 = .ok (false, h3) ∧ GE c9after h3) ∧
    (wfC9 c9h2 = true ∧ hnf_reduce 30 c9h2 4 = .ok c9after2 ∧
      ∃ f2 h3, hnf_reduce_1 f2 c9after2 4 = .ok (false, h3) ∧ GE c9after2 h3) := by
  have hA := hnf_reduce_idempotent 30 5 c9h c9after c9after (by decide) (by decide)
  have hB := hnf_reduce_idempotent 30 4 c9h2 c9h2 c9after2 (by decide) (by decide)
  exact ⟨⟨by decide, hA.1, hA.2⟩, ⟨by decide, hB.1, hB.2⟩⟩

end Vatican
